import Mathlib

/-!
# Verification of the qibo callback / circuit core

Shallow embedding of the parts of the repository needed to settle the
claims about:

* `Callback` result bookkeeping (`__init__`, `append`, `__getitem__`)
  from `src/docker/src/qibo/tensorflow/callbacks.py`;
* `PartialTrace` (partition normalization in the `nqubits` setter and the
  reduced-density-matrix computation in `__call__`);
* `EntanglementEntropy._entropy` together with the eigenvalue cutoff
  `EIGVAL_CUTOFF` from `src/docker/src/qibo/config.py`;
* `BaseCircuit.add` from `src/src/qibo/base/circuit.py`.

Python lists are modelled as Lean `List`s, the Python `dict` of
measurement registers as an association list, machine floats as real
numbers, and tensorflow tensors of amplitudes as functions
`(Fin n → Bool) → ℂ` (one binary axis per qubit, exactly the reshape
`(2,) * nqubits` performed by `PartialTrace.__call__`).
-/

namespace Qibo

open scoped Matrix

/-! ## Callback result bookkeeping

`Callback.__init__` sets `self._results = []`; `Callback.append` does
`self._results.append(result)`; `Callback.__getitem__` dispatches on the
type of the key.  Result entries are kept abstract (`α` stands for the
`tf.Tensor` results).
-/

/-- The kinds of keys a Python caller can pass to `Callback.__getitem__`:
an `int`, a `slice` (modelled with optional start/stop and the implicit
step 1 of a contiguous range), a `list`, a `tuple`, or any other object
(e.g. a string). -/
inductive PyKey where
  | int : Int → PyKey
  | slice : Option Int → Option Int → PyKey
  | list : List Int → PyKey
  | tuple : List Int → PyKey
  | other : PyKey
  deriving DecidableEq, Repr

/-- Outcome of `Callback.__getitem__`: a single recorded result, a stacked
sequence of results (`tf.stack` is modelled as returning the list of
stacked entries), or an uncaught `IndexError` / `TypeError`. -/
inductive GetItemResult (α : Type) where
  | single : α → GetItemResult α
  | stacked : List α → GetItemResult α
  | indexError : GetItemResult α
  | typeError : GetItemResult α
  deriving DecidableEq, Repr

/-- Python `list.__getitem__` with an `int` key: a negative key is shifted
by the length; an index outside `[0, len)` raises `IndexError` (`none`). -/
def listGetInt {α : Type} (xs : List α) (k : Int) : Option α :=
  let i : Int := if k < 0 then k + xs.length else k
  if h : 0 ≤ i ∧ i < xs.length then
    some (xs.get ⟨i.toNat, by
      rcases h with ⟨h0, h1⟩
      omega⟩)
  else none

/-- Clamp one endpoint of a Python slice to `[0, len]` (CPython
`slice.indices` for step 1). -/
def sliceBound (len : Nat) (default : Nat) : Option Int → Nat
  | none => default
  | some v => if v < 0 then (v + len).toNat else min v.toNat len

/-- Python `list.__getitem__` with a step-1 `slice` key: never raises,
returns the contiguous segment from the clamped start to the clamped
stop. -/
def listGetSlice {α : Type} (xs : List α) (start stop : Option Int) : List α :=
  let s := sliceBound xs.length 0 start
  let e := sliceBound xs.length xs.length stop
  (xs.drop s).take (e - s)

/-- `Callback.__getitem__(k)` acting on the recorded results
(`self._results`, oldest first):

* `int` key: the source first raises its custom `IndexError` when
  `k > len(self._results)`; otherwise it evaluates `self._results[k]`,
  which itself raises `IndexError` when out of range (this covers both
  `k == len` and overly negative keys);
* `slice`, `list` and `tuple` keys all take the `tf.stack(self._results[k])`
  branch, but `self._results` is a plain Python list, so only a slice key
  succeeds — indexing a list with a `list`/`tuple` key raises `TypeError`;
* any other key raises `IndexError("Unrecognized type ...")`. -/
def getitem {α : Type} (results : List α) : PyKey → GetItemResult α
  | .int k =>
      if k > (results.length : Int) then .indexError
      else
        match listGetInt results k with
        | some x => .single x
        | none => .indexError
  | .slice s e => .stacked (listGetSlice results s e)
  | .list _ => .typeError
  | .tuple _ => .typeError
  | .other => .indexError

/-- `Callback.append(result)`: `self._results.append(result)`. -/
def callbackAppend {α : Type} (results : List α) (r : α) : List α :=
  results ++ [r]

/-- A run of successive callback invocations, each appending its result in
chronological order. -/
def callbackAppendAll {α : Type} (results : List α) (rs : List α) : List α :=
  rs.foldl callbackAppend results

theorem callbackAppendAll_eq_append {α : Type} (results rs : List α) :
    callbackAppendAll results rs = results ++ rs := by
  induction rs generalizing results with
  | nil => simp [callbackAppendAll]
  | cons r rs ih =>
      simp only [callbackAppendAll, List.foldl_cons] at *
      rw [ih, callbackAppend]
      simp

/-! ## `BaseCircuit` and `add`

From `src/src/qibo/base/circuit.py`.  A gate is the immutable record that
`BaseCircuit.add` inspects: its (optional) qubit-count binding, its name,
the qubits it acts on and its measurement-register data.  The final state
attribute `_final_state` checked first by `add` is initialized and set by
the backend circuit subclass, which is not under `src/`; modelled from the
spec: "once a circuit has produced a final state, no further appends are
permitted", so `final_state` is `some _` exactly after an execution. -/

structure PyGate where
  nqubits : Option Nat
  name : String
  qubits : List Nat
  target_qubits : List Nat
  register_name : Option String

/-- State vectors held as final states (flat amplitude list). -/
def StateVec := List ℂ

structure BaseCircuit where
  nqubits : Nat
  queue : List PyGate
  measurement_sets : List (String × List Nat)
  measurement_gate : Option PyGate
  final_state : Option StateVec

/-- `BaseCircuit.__init__`. -/
def initCircuit (n : Nat) : BaseCircuit :=
  { nqubits := n, queue := [], measurement_sets := [],
    measurement_gate := none, final_state := none }

/-- `BaseCircuit._check_measured`: an error iff some qubit of the gate is
already a target of the circuit's measurement gate. -/
def checkMeasured (c : BaseCircuit) (gateQubits : List Nat) : Bool :=
  gateQubits.any (fun q =>
    match c.measurement_gate with
    | some mg => q ∈ mg.target_qubits
    | none => false)

/-- `BaseCircuit.add_measurement`.  The merge of target qubits into the
existing global measurement gate (`self.measurement_gate.add(...)`) lives
in the gate classes, which are not under `src/`; modelled from the spec's
"named measurement registers" collaborator as appending the new targets. -/
def addMeasurement (c : BaseCircuit) (g : PyGate) : Option String × BaseCircuit :=
  let pick : Option String ⊕ String :=
    match g.register_name with
    | none => Sum.inr ("Register" ++ toString c.measurement_sets.length)
    | some nm =>
        if c.measurement_sets.any (fun p => p.1 = nm) then
          Sum.inl (some ("Register name " ++ nm ++ " has already been used."))
        else Sum.inr nm
  match pick with
  | Sum.inl e => (e, c)
  | Sum.inr nm =>
      let c := { c with measurement_sets := c.measurement_sets ++ [(nm, g.target_qubits)] }
      match c.measurement_gate with
      | none => (none, { c with measurement_gate := some g })
      | some mg =>
          let mg2 := { mg with target_qubits := mg.target_qubits ++ g.target_qubits }
          (none, { c with measurement_gate := some mg2 })

/-- `BaseCircuit.add(gate)`.  Returns the raised error message (if any)
paired with the circuit state at the moment control returns to the caller;
every `raise` happens before the circuit object is mutated, so an error
leaves the circuit component untouched. -/
def addGate (c : BaseCircuit) (g : PyGate) : Option String × BaseCircuit :=
  if c.final_state.isSome then
    (some "Cannot add gates to a circuit after it is executed.", c)
  else
    let g' := match g.nqubits with
      | none => { g with nqubits := some c.nqubits }
      | some _ => g
    if g.nqubits.isSome ∧ g.nqubits ≠ some c.nqubits then
      (some "Attempting to add gate with different total qubits.", c)
    else if checkMeasured c g'.qubits then
      (some "Cannot reuse qubit because it is already measured", c)
    else if g'.name = "measure" then addMeasurement c g'
    else (none, { c with queue := c.queue ++ [g'] })

/-! ## Claim theorems for the callback/circuit bookkeeping -/

/-- **C6.** Executed circuits are immutable: as soon as the circuit holds a
final state, `BaseCircuit.add` raises a `RuntimeError` and the gate queue
(indeed the whole circuit state) is exactly as before the failed call. -/
theorem executed_circuit_add_raises (c : BaseCircuit) (g : PyGate) (s : StateVec)
    (h : c.final_state = some s) :
    (addGate c g).1 = some "Cannot add gates to a circuit after it is executed." ∧
      (addGate c g).2.queue = c.queue ∧ (addGate c g).2 = c := by
  have hs : c.final_state.isSome := by rw [h]; rfl
  simp [addGate, hs]

/-- Witness for C6 at a concrete executed circuit. -/
theorem executed_circuit_add_raises_witness :
    ({ (initCircuit 2) with final_state := some [1, 0, 0, 0] } : BaseCircuit).final_state
        = some [1, 0, 0, 0] ∧
      (addGate { (initCircuit 2) with final_state := some [1, 0, 0, 0] }
          { nqubits := none, name := "h", qubits := [0], target_qubits := [0],
            register_name := none }).1
        = some "Cannot add gates to a circuit after it is executed." :=
  ⟨rfl, (executed_circuit_add_raises _ _ [1, 0, 0, 0] rfl).1⟩

/-- **C7 (counterexample).** The claim "a key that is neither an integer
nor a slice raises an index error" is false: a `list` key reaches the
`tf.stack(self._results[k])` branch and fails with a `TypeError` from
Python list indexing, not an `IndexError`. -/
theorem getitem_list_key_not_indexError :
    getitem ([0] : List Nat) (PyKey.list [0]) = GetItemResult.typeError ∧
      getitem ([0] : List Nat) (PyKey.list [0]) ≠ GetItemResult.indexError := by
  constructor
  · rfl
  · decide

/-- **C7 (amended).** Indexing a callback's results with an out-of-range
integer raises an index error; a key that is none of integer, slice, list
or tuple raises an index error; an in-range integer returns the single
recorded result at that call index.  (List and tuple keys instead fail
with a type error, as shown by the counterexample.) -/
theorem getitem_errors (α : Type) (rs : List α) (k : Int)
    (hk : (rs.length : Int) ≤ k ∨ k < -(rs.length : Int)) :
    getitem rs (.int k) = GetItemResult.indexError ∧
      getitem rs PyKey.other = GetItemResult.indexError ∧
      (∀ (i : Nat) (hi : i < rs.length),
        getitem rs (.int i) = GetItemResult.single (rs.get ⟨i, hi⟩)) := by
  refine ⟨?_, rfl, ?_⟩
  · rcases hk with hk | hk
    · rcases lt_or_le (rs.length : Int) k with h | h
      · simp [getitem, h]
      · have hkl : k = (rs.length : Int) := le_antisymm h hk
        subst hkl
        simp only [getitem, lt_irrefl, if_neg (lt_irrefl _)]
        have : listGetInt rs (rs.length : Int) = none := by
          unfold listGetInt
          have h0 : ¬ ((rs.length : Int) < 0) := by omega
          simp [h0]
        simp [this]
    · have hneg : ¬ ((rs.length : Int) < k) := by omega
      simp only [getitem, if_neg hneg]
      have : listGetInt rs k = none := by
        unfold listGetInt
        have hk0 : k < 0 := by omega
        simp only [if_pos hk0]
        have hcond : ¬ (0 ≤ k + (rs.length : Int) ∧ k + (rs.length : Int) < (rs.length : Int)) := by
          omega
        rw [dif_neg hcond]
      simp [this]
  · intro i hi
    have hle : ¬ ((rs.length : Int) < (i : Int)) := by omega
    simp only [getitem, if_neg hle]
    have : listGetInt rs (i : Int) = some (rs.get ⟨i, hi⟩) := by
      unfold listGetInt
      have h0 : ¬ ((i : Int) < 0) := by omega
      simp only [if_neg h0]
      have hc : (0 : Int) ≤ (i : Int) ∧ (i : Int) < (rs.length : Int) := by omega
      simp only [dif_pos hc, Int.toNat_natCast]
    simp [this]

/-- Witness for C7 at `results = [10, 20]`: key `5` is out of range, a
string-like key errs, and key `1` returns the second recorded result. -/
theorem getitem_errors_witness :
    ((([10, 20] : List Nat).length : Int) ≤ 5 ∨ (5 : Int) < -(([10, 20] : List Nat).length : Int)) ∧
      (getitem ([10, 20] : List Nat) (.int 5) = GetItemResult.indexError ∧
        getitem ([10, 20] : List Nat) PyKey.other = GetItemResult.indexError ∧
        (∀ (i : Nat) (hi : i < ([10, 20] : List Nat).length),
          getitem ([10, 20] : List Nat) (.int i)
            = GetItemResult.single (([10, 20] : List Nat).get ⟨i, hi⟩))) :=
  ⟨Or.inl (by decide), getitem_errors Nat [10, 20] 5 (Or.inl (by decide))⟩

/-- **C8 (code bug).** Indexing with a contiguous slice does return the
stacked sequence of recorded results in order, but indexing with an
explicit list of in-range indices — accepted by the `isinstance` check in
`Callback.__getitem__` and promised by the spec — crashes with a
`TypeError`, because `self._results` is a plain Python list and list
indices cannot be lists: evaluated here at the failing input
`results = [10, 20], key = [0, 1]`. -/
theorem getitem_list_key_bug :
    getitem ([10, 20, 30] : List Nat) (.slice (some 0) (some 2))
        = GetItemResult.stacked [10, 20] ∧
      getitem ([10, 20, 30] : List Nat) (.slice (some 1) none)
        = GetItemResult.stacked [20, 30] ∧
      getitem ([10, 20] : List Nat) (PyKey.list [0, 1]) = GetItemResult.typeError ∧
      getitem ([10, 20] : List Nat) (PyKey.tuple [0, 1]) = GetItemResult.typeError := by
  refine ⟨rfl, rfl, rfl, rfl⟩

/-- **C9.** Callback results accumulate append-only: each invocation
appends exactly one entry, a run of invocations extends the sequence in
chronological order, and no previously recorded entry is overwritten or
removed. -/
theorem callback_results_append_only (α : Type) (rs new : List α) :
    callbackAppendAll rs new = rs ++ new ∧
      (∀ r : α, (callbackAppend rs r).length = rs.length + 1) ∧
      (∀ i : Nat, i < rs.length → (callbackAppendAll rs new).get? i = rs.get? i) := by
  refine ⟨callbackAppendAll_eq_append rs new, ?_, ?_⟩
  · intro r; simp [callbackAppend]
  · intro i hi
    rw [callbackAppendAll_eq_append rs new]
    exact List.get?_append hi

/-- Witness for C9 at a concrete pair of executions. -/
theorem callback_results_append_only_witness :
    callbackAppendAll [1, 2] [3] = [1, 2] ++ [3] ∧
      (callbackAppend ([1, 2] : List Nat) 3).length = ([1, 2] : List Nat).length + 1 ∧
      (1 : Nat) < ([1, 2] : List Nat).length ∧
      (callbackAppendAll [1, 2] [3]).get? 1 = ([1, 2] : List Nat).get? 1 :=
  ⟨(callback_results_append_only Nat [1, 2] [3]).1,
    (callback_results_append_only Nat [1, 2] [3]).2.1 3,
    by decide,
    (callback_results_append_only Nat [1, 2] [3]).2.2 1 (by decide)⟩

/-- **C10.** Negative-index access: for `m` recorded results and
`-m ≤ k ≤ -1`, `Callback.__getitem__` returns the `(m + k)`-th recorded
result (Python counting from the end) instead of raising. -/
theorem getitem_negative_index (α : Type) (rs : List α) (k : Int)
    (hlo : -(rs.length : Int) ≤ k) (hhi : k ≤ -1) :
    ∃ h : (k + (rs.length : Int)).toNat < rs.length,
      getitem rs (.int k) = GetItemResult.single (rs.get ⟨(k + (rs.length : Int)).toNat, h⟩) := by
  have hbound : (k + (rs.length : Int)).toNat < rs.length := by omega
  refine ⟨hbound, ?_⟩
  have hgt : ¬ ((rs.length : Int) < k) := by omega
  simp only [getitem, if_neg hgt]
  have : listGetInt rs k = some (rs.get ⟨(k + (rs.length : Int)).toNat, hbound⟩) := by
    unfold listGetInt
    have hk0 : k < 0 := by omega
    simp only [if_pos hk0]
    have hc : (0 : Int) ≤ k + (rs.length : Int) ∧ k + (rs.length : Int) < (rs.length : Int) := by
      omega
    simp only [dif_pos hc]
  simp [this]

/-- Witness for C10: with two recorded results, key `-1` returns the most
recent one. -/
theorem getitem_negative_index_witness :
    (-(([10, 20] : List Nat).length : Int) ≤ -1) ∧ ((-1 : Int) ≤ -1) ∧
      ∃ h : ((-1 : Int) + (([10, 20] : List Nat).length : Int)).toNat < ([10, 20] : List Nat).length,
        getitem ([10, 20] : List Nat) (.int (-1))
          = GetItemResult.single (([10, 20] : List Nat).get
              ⟨((-1 : Int) + (([10, 20] : List Nat).length : Int)).toNat, h⟩) :=
  ⟨by decide, by decide, getitem_negative_index Nat [10, 20] (-1) (by decide) (by decide)⟩

/-! ## `PartialTrace`: partition normalization and reduced density matrix

The `nqubits` setter of `PartialTrace` replaces the user-supplied
partition (list of qubit ids to trace out) by its complement whenever it
holds fewer than `n // 2` qubits, "so that we diagonalize a smaller
matrix", and records `rho_dim = 2 ** (n - len(partition))`.  Partitions
are modelled as `Finset (Fin n)` (sets of qubit ids). -/

/-- `EIGVAL_CUTOFF` from `src/docker/src/qibo/config.py`: eigenvalues at
or below this cutoff are ignored by the entropy calculation. -/
def EIGVAL_CUTOFF : ℝ := 1e-14

/-- The partition switch of the `nqubits` setter:
`if len(self.partition) < n // 2: self.partition = [i for i in range(n) if i not in set(self.partition)]`. -/
def normalizePartition (n : ℕ) (S : Finset (Fin n)) : Finset (Fin n) :=
  if S.card < n / 2 then Sᶜ else S

/-- `self.rho_dim = 2 ** (n - len(self.partition))` (with the partition
already normalized). -/
def rhoDim (n : ℕ) (S : Finset (Fin n)) : ℕ :=
  2 ^ (n - (normalizePartition n S).card)

/-- An `n`-qubit amplitude tensor after the reshape
`state = tf.reshape(state, nqubits * (2,))` of `PartialTrace.__call__`:
one binary axis per qubit. -/
def QState (n : ℕ) : Type := (Fin n → Bool) → ℂ

/-- Reassemble a full qubit assignment from its restriction to the
traced-out set `T` (first slot) and to the kept set `Tᶜ` (second slot). -/
def combine {n : ℕ} (T : Finset (Fin n)) (t : {i // i ∈ T} → Bool)
    (k : {i // i ∈ Tᶜ} → Bool) : Fin n → Bool :=
  fun i => if h : i ∈ T then t ⟨i, h⟩ else k ⟨i, Finset.mem_compl.mpr h⟩

/-- Splitting an assignment along `T`/`Tᶜ` and reassembling it with
`combine` is a bijection. -/
def combineEquiv {n : ℕ} (T : Finset (Fin n)) :
    (({i // i ∈ T} → Bool) × ({i // i ∈ Tᶜ} → Bool)) ≃ (Fin n → Bool) where
  toFun p := combine T p.1 p.2
  invFun g := (fun i => g i.1, fun i => g i.1)
  left_inv p := by
    refine Prod.ext ?_ ?_
    · funext i
      simp [combine, i.2]
    · funext i
      have hi : (i.1 : Fin n) ∉ T := Finset.mem_compl.mp i.2
      simp [combine, hi]
  right_inv g := by
    funext i
    by_cases h : i ∈ T <;> simp [combine, h]

/-- The pure state reshaped as a matrix across the bipartition
`(kept = Tᶜ, traced = T)`. -/
noncomputable def stateMatrix {n : ℕ} (ψ : QState n) (T : Finset (Fin n)) :
    Matrix ({i // i ∈ Tᶜ} → Bool) ({i // i ∈ T} → Bool) ℂ :=
  fun k t => ψ (combine T t k)

/-- `PartialTrace.__call__` on a pure state:
`rho = tf.tensordot(state, tf.math.conj(state), axes=[partition, partition])`,
i.e. the reduced density matrix over the kept qubits `Tᶜ` obtained by
contracting the traced axes `T`. -/
noncomputable def reducedDensity {n : ℕ} (ψ : QState n) (T : Finset (Fin n)) :
    Matrix ({i // i ∈ Tᶜ} → Bool) ({i // i ∈ Tᶜ} → Bool) ℂ :=
  fun a b => ∑ t : {i // i ∈ T} → Bool,
    ψ (combine T t a) * (starRingEnd ℂ) (ψ (combine T t b))

/-- Modelled from the spec: the density-matrix branch of
`PartialTrace.__call__` contracts via the einsum string produced by
`DefaultEinsum.partialtrace_str` in `qibo/tensorflow/einsum.py`, a file
that is not under `src/`.  The spec: "for an existing density matrix,
contract directly via the appropriate trace pattern", i.e. sum the
diagonal over the traced-out axes. -/
noncomputable def reducedDensityDM {n : ℕ} (ρ : Matrix (Fin n → Bool) (Fin n → Bool) ℂ)
    (T : Finset (Fin n)) :
    Matrix ({i // i ∈ Tᶜ} → Bool) ({i // i ∈ Tᶜ} → Bool) ℂ :=
  fun a b => ∑ t : {i // i ∈ T} → Bool, ρ (combine T t a) (combine T t b)

/-! ## `EntanglementEntropy._entropy` -/

/-- The mask and entropy formula of `EntanglementEntropy._entropy` as a
function of the (real parts of the) eigenvalues:
`masked_eigvals = tf.gather(eigvals, tf.where(eigvals > EIGVAL_CUTOFF))`,
`entropy = -tf.reduce_sum(masked_eigvals * tf.math.log(masked_eigvals))`,
returned as `entropy / log 2`. -/
noncomputable def entropyOfEigvals (e : Multiset ℝ) : ℝ :=
  -((e.filter (fun x => EIGVAL_CUTOFF < x)).map (fun x => x * Real.log x)).sum
    / Real.log 2

/-- `tf.math.real(tf.linalg.eigvalsh(rho))`, the diagonalization step of
`_entropy`, modelled as the real parts of the roots (with multiplicity) of
the characteristic polynomial: for the Hermitian matrices the callback
produces these are exactly the eigenvalues computed by the external
`eigvalsh` routine. -/
noncomputable def eigvalshRe {d : Type} [Fintype d] [DecidableEq d]
    (ρ : Matrix d d ℂ) : Multiset ℝ :=
  ρ.charpoly.roots.map Complex.re

/-- `EntanglementEntropy._entropy(rho)`. -/
noncomputable def entropyOfRho {d : Type} [Fintype d] [DecidableEq d]
    (ρ : Matrix d d ℂ) : ℝ :=
  entropyOfEigvals (eigvalshRe ρ)

/-- `EntanglementEntropy.__call__` on a pure state with user partition `S`
(normalized by the `nqubits` setter on first use): the entropy of the
reduced density matrix. -/
noncomputable def entanglementEntropy {n : ℕ} (ψ : QState n) (S : Finset (Fin n)) : ℝ :=
  entropyOfRho (reducedDensity ψ (normalizePartition n S))

/-! ## Claim theorems C2, C5, C3 -/

/-- **C2.** When the user-supplied subsystem `S` holds more than half the
qubits, the `nqubits` setter keeps `S` as the traced-out set, so the
engine returns the reduced density matrix of the complement of `S`, of
dimension `2^(n-|S|)`; this is strictly smaller than the `2^|S|` matrix of
the other side, and the dimension the engine diagonalizes for `S` is never
larger than the one it would diagonalize for `Sᶜ`. -/
theorem partition_switch_mechanism (n : ℕ) (S : Finset (Fin n))
    (h : n < 2 * S.card) :
    normalizePartition n S = S ∧
      rhoDim n S = 2 ^ (n - S.card) ∧
      2 ^ (n - S.card) < 2 ^ S.card ∧
      rhoDim n S ≤ rhoDim n Sᶜ := by
  have hcard : S.card ≤ n := by
    have := Finset.card_le_univ S
    simpa using this
  have hns : ¬ (S.card < n / 2) := by omega
  have hnorm : normalizePartition n S = S := if_neg hns
  have hdim : rhoDim n S = 2 ^ (n - S.card) := by
    rw [rhoDim, hnorm]
  refine ⟨hnorm, hdim, ?_, ?_⟩
  · exact Nat.pow_lt_pow_right (by norm_num) (by omega)
  · have hcompl : Sᶜ.card = n - S.card := by
      rw [Finset.card_compl]
      simp
    rw [hdim, rhoDim]
    by_cases hsw : Sᶜ.card < n / 2
    · rw [normalizePartition, if_pos hsw, compl_compl]
    · rw [normalizePartition, if_neg hsw, hcompl]
      have : n - (n - S.card) = S.card := by omega
      rw [this]
      exact Nat.pow_le_pow_right (by norm_num) (by omega)

/-- Witness for C2 at `n = 3`, `S = {0, 1}`. -/
theorem partition_switch_mechanism_witness :
    3 < 2 * ({0, 1} : Finset (Fin 3)).card ∧
      (normalizePartition 3 ({0, 1} : Finset (Fin 3)) = {0, 1} ∧
        rhoDim 3 ({0, 1} : Finset (Fin 3)) = 2 ^ (3 - ({0, 1} : Finset (Fin 3)).card) ∧
        2 ^ (3 - ({0, 1} : Finset (Fin 3)).card) < 2 ^ ({0, 1} : Finset (Fin 3)).card ∧
        rhoDim 3 ({0, 1} : Finset (Fin 3)) ≤ rhoDim 3 ({0, 1} : Finset (Fin 3))ᶜ) :=
  ⟨by decide, partition_switch_mechanism 3 {0, 1} (by decide)⟩

theorem trace_reducedDensity {n : ℕ} (ψ : QState n) (T : Finset (Fin n)) :
    Matrix.trace (reducedDensity ψ T)
      = ∑ g : Fin n → Bool, ψ g * (starRingEnd ℂ) (ψ g) := by
  show (∑ a : {i // i ∈ Tᶜ} → Bool, ∑ t : {i // i ∈ T} → Bool,
      ψ (combine T t a) * (starRingEnd ℂ) (ψ (combine T t a))) = _
  rw [Finset.sum_comm, ← Fintype.sum_prod_type']
  exact Equiv.sum_comp (combineEquiv T) (fun g => ψ g * (starRingEnd ℂ) (ψ g))

theorem trace_reducedDensityDM {n : ℕ} (ρ : Matrix (Fin n → Bool) (Fin n → Bool) ℂ)
    (T : Finset (Fin n)) :
    Matrix.trace (reducedDensityDM ρ T) = Matrix.trace ρ := by
  show (∑ a : {i // i ∈ Tᶜ} → Bool, ∑ t : {i // i ∈ T} → Bool,
      ρ (combine T t a) (combine T t a)) = ∑ g : Fin n → Bool, ρ g g
  rw [Finset.sum_comm, ← Fintype.sum_prod_type']
  exact Equiv.sum_comp (combineEquiv T) (fun g => ρ g g)

/-- **C5.** The partial trace is trace-preserving: for a normalized pure
state (amplitudes with unit square-norm) and for a density matrix of unit
trace, the reduced density matrix computed by `PartialTrace.__call__` for
any user partition `S` has trace `1`. -/
theorem partial_trace_preserves_trace (n : ℕ) (S : Finset (Fin n)) :
    (∀ ψ : QState n, (∑ g : Fin n → Bool, ψ g * (starRingEnd ℂ) (ψ g)) = 1 →
        Matrix.trace (reducedDensity ψ (normalizePartition n S)) = 1) ∧
      (∀ ρ : Matrix (Fin n → Bool) (Fin n → Bool) ℂ, Matrix.trace ρ = 1 →
        Matrix.trace (reducedDensityDM ρ (normalizePartition n S)) = 1) := by
  constructor
  · intro ψ hψ
    rw [trace_reducedDensity, hψ]
  · intro ρ hρ
    rw [trace_reducedDensityDM, hρ]

/-- **C3.** `EntanglementEntropy._entropy` diagonalizes the density
matrix, takes the real parts of the eigenvalues, discards every eigenvalue
at or below the fixed cutoff `EIGVAL_CUTOFF = 1e-14`, and returns
`−Σ λ·log2 λ` over the remaining eigenvalues; when every eigenvalue is at
or below the cutoff, the returned entropy is `0`. -/
theorem entropy_formula {d : Type} [Fintype d] [DecidableEq d] (ρ : Matrix d d ℂ) :
    entropyOfRho ρ
        = -(((eigvalshRe ρ).filter (fun x => ¬ x ≤ EIGVAL_CUTOFF)).map
            (fun x => x * Real.logb 2 x)).sum ∧
      ((∀ x ∈ eigvalshRe ρ, x ≤ EIGVAL_CUTOFF) → entropyOfRho ρ = 0) := by
  constructor
  · rw [entropyOfRho, entropyOfEigvals]
    have hpred : ((eigvalshRe ρ).filter (fun x => ¬ x ≤ EIGVAL_CUTOFF))
        = ((eigvalshRe ρ).filter (fun x => EIGVAL_CUTOFF < x)) := by
      apply Multiset.filter_congr
      intro x _
      simp [not_le]
    rw [hpred]
    rw [div_eq_mul_inv, neg_mul, ← Multiset.sum_map_mul_right]
    refine congrArg Neg.neg (congrArg Multiset.sum ?_)
    apply Multiset.map_congr rfl
    intro x _
    rw [Real.logb, div_eq_mul_inv]
    ring
  · intro hall
    rw [entropyOfRho, entropyOfEigvals]
    have hnil : (eigvalshRe ρ).filter (fun x => EIGVAL_CUTOFF < x) = 0 := by
      rw [Multiset.filter_eq_nil]
      intro x hx
      exact not_lt.mpr (hall x hx)
    rw [hnil]
    simp

/-- The `0 × 0` matrix has an empty eigenvalue list: its characteristic
polynomial is `1`. -/
theorem eigvalshRe_zero_dim (ρ : Matrix (Fin 0) (Fin 0) ℂ) : eigvalshRe ρ = 0 := by
  rw [eigvalshRe, Matrix.charpoly, Matrix.det_isEmpty]
  simp

/-- Witness for C3 at the `0 × 0` density matrix, whose eigenvalue list is
empty so that the all-below-cutoff hypothesis holds. -/
theorem entropy_formula_witness :
    (∀ x ∈ eigvalshRe (0 : Matrix (Fin 0) (Fin 0) ℂ), x ≤ EIGVAL_CUTOFF) ∧
      entropyOfRho (0 : Matrix (Fin 0) (Fin 0) ℂ) = 0 := by
  have hall : ∀ x ∈ eigvalshRe (0 : Matrix (Fin 0) (Fin 0) ℂ), x ≤ EIGVAL_CUTOFF := by
    rw [eigvalshRe_zero_dim]
    intro x hx
    simp at hx
  exact ⟨hall, (entropy_formula (0 : Matrix (Fin 0) (Fin 0) ℂ)).2 hall⟩

/-- Witness for C5 on one qubit: the basis state `|0⟩` and the density
matrix `|0⟩⟨0|`, both with the partition `{0}`. -/
theorem partial_trace_preserves_trace_witness :
    ((∑ g : Fin 1 → Bool, (fun g : Fin 1 → Bool => if g = fun _ => false then (1 : ℂ) else 0) g
        * (starRingEnd ℂ) ((fun g : Fin 1 → Bool => if g = fun _ => false then (1 : ℂ) else 0) g)) = 1
      ∧ Matrix.trace (reducedDensity
          (fun g : Fin 1 → Bool => if g = fun _ => false then (1 : ℂ) else 0)
          (normalizePartition 1 ({0} : Finset (Fin 1)))) = 1)
    ∧ (Matrix.trace (fun a b : Fin 1 → Bool =>
          if a = (fun _ => false) ∧ b = (fun _ => false) then (1 : ℂ) else 0) = 1
      ∧ Matrix.trace (reducedDensityDM
          (fun a b : Fin 1 → Bool =>
            if a = (fun _ => false) ∧ b = (fun _ => false) then (1 : ℂ) else 0)
          (normalizePartition 1 ({0} : Finset (Fin 1)))) = 1) := by
  have hψ : (∑ g : Fin 1 → Bool,
      (fun g : Fin 1 → Bool => if g = fun _ => false then (1 : ℂ) else 0) g
        * (starRingEnd ℂ) ((fun g : Fin 1 → Bool => if g = fun _ => false then (1 : ℂ) else 0) g))
      = 1 := by
    rw [Finset.sum_eq_single (fun _ => false)]
    · simp
    · intro b _ hb
      simp [hb]
    · intro hmem
      exact absurd (Finset.mem_univ _) hmem
  have hρ : Matrix.trace (fun a b : Fin 1 → Bool =>
      if a = (fun _ => false) ∧ b = (fun _ => false) then (1 : ℂ) else 0) = 1 := by
    rw [Matrix.trace]
    rw [Finset.sum_eq_single (fun _ => false)]
    · simp [Matrix.diag]
    · intro b _ hb
      simp [Matrix.diag, hb]
    · intro hmem
      exact absurd (Finset.mem_univ _) hmem
  exact ⟨⟨hψ, (partial_trace_preserves_trace 1 {0}).1 _ hψ⟩,
    ⟨hρ, (partial_trace_preserves_trace 1 {0}).2 _ hρ⟩⟩

/-! ## Separable states: zero entropy (C4)

A fully separable pure state factors across every bipartition, making the
reduced density matrix an idempotent (a rank-one projector when the state
is normalized); all its eigenvalues are `0` or `1`, so each term of the
entropy sum vanishes. -/

/-- Amplitude of the restriction of a fully separable state
`ψ g = ∏ i, f i (g i)` to the qubits in `U`. -/
noncomputable def subAmp {n : ℕ} (f : Fin n → Bool → ℂ) (U : Finset (Fin n))
    (u : {i // i ∈ U} → Bool) : ℂ :=
  ∏ i : {i // i ∈ U}, f i.1 (u i)

theorem prod_combine {n : ℕ} (f : Fin n → Bool → ℂ) (T : Finset (Fin n))
    (t : {i // i ∈ T} → Bool) (k : {i // i ∈ Tᶜ} → Bool) :
    (∏ i : Fin n, f i (combine T t k i)) = subAmp f T t * subAmp f Tᶜ k := by
  rw [← Finset.prod_mul_prod_compl T (fun i => f i (combine T t k i))]
  congr 1
  · rw [← Finset.prod_coe_sort T (fun i => f i (combine T t k i))]
    apply Finset.prod_congr rfl
    intro i _
    simp [combine, i.2]
  · rw [← Finset.prod_coe_sort Tᶜ (fun i => f i (combine T t k i))]
    apply Finset.prod_congr rfl
    intro i _
    have hi : (i.1 : Fin n) ∉ T := Finset.mem_compl.mp i.2
    simp [combine, hi]

theorem reducedDensity_product {n : ℕ} (ψ : QState n) (f : Fin n → Bool → ℂ)
    (T : Finset (Fin n)) (hsep : ∀ g, ψ g = ∏ i, f i (g i))
    (a b : {i // i ∈ Tᶜ} → Bool) :
    reducedDensity ψ T a b
      = (∑ t : {i // i ∈ T} → Bool, subAmp f T t * (starRingEnd ℂ) (subAmp f T t))
        * (subAmp f Tᶜ a * (starRingEnd ℂ) (subAmp f Tᶜ b)) := by
  rw [reducedDensity, Finset.sum_mul]
  apply Finset.sum_congr rfl
  intro t _
  rw [hsep, hsep, prod_combine, prod_combine, map_mul]
  ring

theorem reducedDensity_product_idem {n : ℕ} (ψ : QState n) (f : Fin n → Bool → ℂ)
    (T : Finset (Fin n)) (hsep : ∀ g, ψ g = ∏ i, f i (g i))
    (hnorm : (∑ g : Fin n → Bool, ψ g * (starRingEnd ℂ) (ψ g)) = 1) :
    reducedDensity ψ T * reducedDensity ψ T = reducedDensity ψ T := by
  have hsp : (∑ t : {i // i ∈ T} → Bool, subAmp f T t * (starRingEnd ℂ) (subAmp f T t))
      * (∑ k : {i // i ∈ Tᶜ} → Bool, subAmp f Tᶜ k * (starRingEnd ℂ) (subAmp f Tᶜ k)) = 1 := by
    rw [← hnorm]
    rw [Finset.sum_mul_sum]
    rw [← Equiv.sum_comp (combineEquiv T) (fun g => ψ g * (starRingEnd ℂ) (ψ g))]
    rw [Fintype.sum_prod_type]
    apply Finset.sum_congr rfl
    intro t _
    apply Finset.sum_congr rfl
    intro k _
    have : ψ (combineEquiv T (t, k)) = subAmp f T t * subAmp f Tᶜ k := by
      rw [show (combineEquiv T (t, k) : Fin n → Bool) = combine T t k from rfl]
      rw [hsep, prod_combine]
    rw [this, map_mul]
    ring
  ext a b
  rw [Matrix.mul_apply]
  calc ∑ c, reducedDensity ψ T a c * reducedDensity ψ T c b
      = ∑ c : {i // i ∈ Tᶜ} → Bool,
          ((∑ t : {i // i ∈ T} → Bool, subAmp f T t * (starRingEnd ℂ) (subAmp f T t))
            * (∑ t : {i // i ∈ T} → Bool, subAmp f T t * (starRingEnd ℂ) (subAmp f T t))
            * (subAmp f Tᶜ a * (starRingEnd ℂ) (subAmp f Tᶜ b)))
            * (subAmp f Tᶜ c * (starRingEnd ℂ) (subAmp f Tᶜ c)) := by
        apply Finset.sum_congr rfl
        intro c _
        rw [reducedDensity_product ψ f T hsep, reducedDensity_product ψ f T hsep]
        ring
    _ = (∑ t : {i // i ∈ T} → Bool, subAmp f T t * (starRingEnd ℂ) (subAmp f T t))
          * (subAmp f Tᶜ a * (starRingEnd ℂ) (subAmp f Tᶜ b))
          * ((∑ t : {i // i ∈ T} → Bool, subAmp f T t * (starRingEnd ℂ) (subAmp f T t))
            * (∑ k : {i // i ∈ Tᶜ} → Bool, subAmp f Tᶜ k * (starRingEnd ℂ) (subAmp f Tᶜ k))) := by
        rw [← Finset.mul_sum]
        ring
    _ = reducedDensity ψ T a b := by
        rw [hsp, mul_one, reducedDensity_product ψ f T hsep]

/-- Evaluating the characteristic polynomial at `μ` gives the determinant
of `μ • 1 - ρ`. -/
theorem charpoly_eval_eq_det {d : Type} [Fintype d] [DecidableEq d]
    (ρ : Matrix d d ℂ) (μ : ℂ) :
    (Matrix.charpoly ρ).eval μ = Matrix.det (μ • (1 : Matrix d d ℂ) - ρ) := by
  rw [Matrix.charpoly]
  calc (Matrix.charmatrix ρ).det.eval μ
      = ((Polynomial.evalRingHom μ).mapMatrix (Matrix.charmatrix ρ)).det := by
        rw [← RingHom.map_det]
        rfl
    _ = Matrix.det (μ • (1 : Matrix d d ℂ) - ρ) := by
        congr 1
        ext i j
        by_cases hij : i = j
        · subst hij
          simp [Matrix.one_apply]
        · simp [Matrix.charmatrix_apply_ne _ _ _ hij, Matrix.one_apply_ne hij]

/-- Roots of the characteristic polynomial of an idempotent matrix are `0`
or `1`. -/
theorem charpoly_roots_idem {d : Type} [Fintype d] [DecidableEq d]
    (ρ : Matrix d d ℂ) (hidem : ρ * ρ = ρ) :
    ∀ μ ∈ (Matrix.charpoly ρ).roots, μ = 0 ∨ μ = 1 := by
  intro μ hμ
  have hroot : (Matrix.charpoly ρ).IsRoot μ :=
    (Polynomial.mem_roots (Matrix.charpoly_monic ρ).ne_zero).mp hμ
  have hdet : Matrix.det (μ • (1 : Matrix d d ℂ) - ρ) = 0 := by
    rw [← charpoly_eval_eq_det]
    exact hroot
  obtain ⟨v, hv, hmul⟩ := Matrix.exists_mulVec_eq_zero_iff.mpr hdet
  have heig : ρ.mulVec v = μ • v := by
    rw [Matrix.sub_mulVec, Matrix.smul_mulVec_assoc, Matrix.one_mulVec] at hmul
    exact (sub_eq_zero.mp hmul).symm
  have h2 : (μ * μ) • v = μ • v := by
    have h1 : ρ.mulVec (ρ.mulVec v) = ρ.mulVec v := by
      rw [Matrix.mulVec_mulVec, hidem]
    rw [heig, Matrix.mulVec_smul, heig, smul_smul] at h1
    exact h1
  obtain ⟨j, hj⟩ := Function.ne_iff.mp hv
  have hj2 : (μ * μ) * v j = μ * v j := congrFun h2 j
  have hfac : μ * (μ - 1) * v j = 0 := by
    have : (μ * μ - μ) * v j = 0 := by
      rw [sub_mul, hj2, sub_self]
    calc μ * (μ - 1) * v j = (μ * μ - μ) * v j := by ring
      _ = 0 := this
  rcases mul_eq_zero.mp hfac with hf | hvj
  · rcases mul_eq_zero.mp hf with h0 | h1
    · exact Or.inl h0
    · exact Or.inr (by linear_combination h1)
  · exact absurd hvj hj

/-- The entropy of an idempotent density matrix vanishes: every kept
eigenvalue contributes `λ·log λ = 0`. -/
theorem entropyOfRho_of_idem {d : Type} [Fintype d] [DecidableEq d]
    (ρ : Matrix d d ℂ) (hidem : ρ * ρ = ρ) : entropyOfRho ρ = 0 := by
  rw [entropyOfRho, entropyOfEigvals]
  have hzero : ∀ y ∈ ((eigvalshRe ρ).filter (fun x => EIGVAL_CUTOFF < x)).map
      (fun x => x * Real.log x), y = 0 := by
    intro y hy
    obtain ⟨x, hx, rfl⟩ := Multiset.mem_map.mp hy
    obtain ⟨hxe, _⟩ := Multiset.mem_filter.mp hx
    obtain ⟨μ, hμ, rfl⟩ := Multiset.mem_map.mp hxe
    rcases charpoly_roots_idem ρ hidem μ hμ with h0 | h1
    · rw [h0]
      simp
    · rw [h1]
      simp
  rw [Multiset.sum_eq_zero hzero]
  simp

/-- **C4.** Separable states carry zero entropy: for every fully separable
(product) normalized pure state and every bipartition, the entanglement
entropy computed by `EntanglementEntropy` is exactly `0` (in particular
within the `1e-8` tolerance of the claim). -/
theorem separable_state_zero_entropy {n : ℕ} (ψ : QState n) (f : Fin n → Bool → ℂ)
    (S : Finset (Fin n)) (hsep : ∀ g, ψ g = ∏ i, f i (g i))
    (hnorm : (∑ g : Fin n → Bool, ψ g * (starRingEnd ℂ) (ψ g)) = 1) :
    entanglementEntropy ψ S = 0 := by
  rw [entanglementEntropy]
  exact entropyOfRho_of_idem _
    (reducedDensity_product_idem ψ f (normalizePartition n S) hsep hnorm)

/-- Witness for C4: the spec's example, the 2-qubit equal-superposition
state `[0.5, 0.5, 0.5, 0.5]` with bipartition `{0}`, has entropy `0`. -/
theorem separable_state_zero_entropy_witness :
    (∀ g : Fin 2 → Bool, (fun _ : Fin 2 → Bool => (1/2 : ℂ)) g
        = ∏ i : Fin 2, (if i = 0 then (1/2 : ℂ) else 1)) ∧
      (∑ _g : Fin 2 → Bool, (1/2 : ℂ) * (starRingEnd ℂ) ((1/2 : ℂ))) = 1 ∧
      entanglementEntropy (fun _ : Fin 2 → Bool => (1/2 : ℂ)) ({0} : Finset (Fin 2)) = 0 := by
  have hsep : ∀ g : Fin 2 → Bool, (fun _ : Fin 2 → Bool => (1/2 : ℂ)) g
      = ∏ i : Fin 2, (if i = 0 then (1/2 : ℂ) else 1) := by
    intro g
    rw [Fin.prod_univ_two]
    norm_num
  have hconj : (starRingEnd ℂ) ((1/2 : ℂ)) = 1/2 := by
    rw [map_div₀, map_one, map_ofNat]
  have hnorm : (∑ _g : Fin 2 → Bool, (1/2 : ℂ) * (starRingEnd ℂ) ((1/2 : ℂ))) = 1 := by
    rw [hconj, Finset.sum_const, Finset.card_univ]
    rw [show Fintype.card (Fin 2 → Bool) = 4 by simp [Fintype.card_fun]]
    norm_num
  exact ⟨hsep, hnorm,
    separable_state_zero_entropy (fun _ => (1/2 : ℂ))
      (fun i _ => if i = 0 then (1/2 : ℂ) else 1) {0} hsep hnorm⟩

/-! ## Partition-switch transparency (C1)

For a pure state the reduced density matrices of the two sides of a
bipartition are `A * Aᴴ` and (up to reindexing and transposition)
`Aᴴ * A` for the same rectangular amplitude matrix `A`, and the
characteristic polynomials of `A * Aᴴ` and `Aᴴ * A` agree up to a power of
`X`; their root multisets therefore agree away from `0`, and the entropy
mask discards `0` anyway. -/

theorem charmatrix_eq_smul_sub {d : Type} [Fintype d] [DecidableEq d]
    {R : Type} [CommRing R] (P : Matrix d d R) :
    (Polynomial.X : Polynomial R) • (1 : Matrix d d (Polynomial R)) - P.map Polynomial.C
      = Matrix.charmatrix P := by
  ext i j
  by_cases h : i = j
  · subst h
    simp [Matrix.one_apply, Matrix.map_apply, smul_eq_mul]
  · simp [Matrix.charmatrix_apply_ne _ _ _ h, Matrix.one_apply_ne h, Matrix.map_apply]

theorem charpoly_transpose' {d : Type} [Fintype d] [DecidableEq d]
    {R : Type} [CommRing R] (M : Matrix d d R) :
    Matrix.charpoly Mᵀ = Matrix.charpoly M := by
  rw [Matrix.charpoly, Matrix.charpoly]
  have hT : Matrix.charmatrix Mᵀ = (Matrix.charmatrix M)ᵀ := by
    ext i j
    by_cases h : i = j
    · subst h
      simp
    · simp [Matrix.charmatrix_apply_ne _ _ _ h,
        Matrix.charmatrix_apply_ne _ _ _ (Ne.symm h), Matrix.transpose_apply]
  rw [hT, Matrix.det_transpose]

/-- The classical rectangular commutation identity for characteristic
polynomials: for `M : m × p` and `N : p × m`,
`charpoly (M * N) * X^|p| = X^|m| * charpoly (N * M)`, by comparing the
two ways to compute the determinant of a product of block matrices. -/
theorem charpoly_mul_X_pow {R : Type} [CommRing R] {m p : Type}
    [Fintype m] [DecidableEq m] [Fintype p] [DecidableEq p]
    (M : Matrix m p R) (N : Matrix p m R) :
    Matrix.charpoly (M * N) * Polynomial.X ^ Fintype.card p
      = Polynomial.X ^ Fintype.card m * Matrix.charpoly (N * M) := by
  let Mp : Matrix m p (Polynomial R) := M.map Polynomial.C
  let Np : Matrix p m (Polynomial R) := N.map Polynomial.C
  let B : Matrix (m ⊕ p) (m ⊕ p) (Polynomial R) :=
    Matrix.fromBlocks ((Polynomial.X : Polynomial R) • 1) Mp Np 1
  let Cm : Matrix (m ⊕ p) (m ⊕ p) (Polynomial R) :=
    Matrix.fromBlocks 1 0 (-Np) ((Polynomial.X : Polynomial R) • 1)
  have hBC : B * Cm
      = Matrix.fromBlocks (Matrix.charmatrix (M * N)) ((Polynomial.X : Polynomial R) • Mp)
          0 ((Polynomial.X : Polynomial R) • (1 : Matrix p p (Polynomial R))) := by
    show Matrix.fromBlocks ((Polynomial.X : Polynomial R) • 1) Mp Np 1
        * Matrix.fromBlocks 1 0 (-Np) ((Polynomial.X : Polynomial R) • 1) = _
    rw [Matrix.fromBlocks_multiply]
    rw [Matrix.fromBlocks_inj]
    refine ⟨?_, ?_, ?_, ?_⟩
    · rw [Matrix.mul_one, Matrix.mul_neg, ← charmatrix_eq_smul_sub, sub_eq_add_neg]
      have : Mp * Np = (M * N).map Polynomial.C := (Matrix.map_mul).symm
      rw [this]
    · rw [Matrix.mul_zero, zero_add, Matrix.mul_smul, Matrix.mul_one]
    · rw [Matrix.mul_one, Matrix.one_mul, add_neg_cancel]
    · rw [Matrix.mul_zero, zero_add, Matrix.one_mul]
  have hCB : Cm * B
      = Matrix.fromBlocks ((Polynomial.X : Polynomial R) • (1 : Matrix m m (Polynomial R))) Mp
          0 (Matrix.charmatrix (N * M)) := by
    show Matrix.fromBlocks 1 0 (-Np) ((Polynomial.X : Polynomial R) • 1)
        * Matrix.fromBlocks ((Polynomial.X : Polynomial R) • 1) Mp Np 1 = _
    rw [Matrix.fromBlocks_multiply]
    rw [Matrix.fromBlocks_inj]
    refine ⟨?_, ?_, ?_, ?_⟩
    · rw [Matrix.one_mul, Matrix.zero_mul, add_zero]
    · rw [Matrix.one_mul, Matrix.zero_mul, add_zero]
    · rw [Matrix.neg_mul, Matrix.mul_smul, Matrix.mul_one, Matrix.smul_mul, Matrix.one_mul,
        neg_add_cancel]
    · rw [Matrix.neg_mul, Matrix.smul_mul, Matrix.one_mul, ← charmatrix_eq_smul_sub,
        sub_eq_add_neg, add_comm]
      have : Np * Mp = (N * M).map Polynomial.C := (Matrix.map_mul).symm
      rw [this]
  have hdetBC : (B * Cm).det = Matrix.charpoly (M * N) * Polynomial.X ^ Fintype.card p := by
    rw [hBC, Matrix.det_fromBlocks_zero₂₁, Matrix.det_smul, Matrix.det_one, mul_one,
      Matrix.charpoly]
  have hdetCB : (Cm * B).det = Polynomial.X ^ Fintype.card m * Matrix.charpoly (N * M) := by
    rw [hCB, Matrix.det_fromBlocks_zero₂₁, Matrix.det_smul, Matrix.det_one, mul_one,
      Matrix.charpoly]
  rw [← hdetBC, ← hdetCB, Matrix.det_mul, Matrix.det_mul, mul_comm]

/-- Away from `0`, and hence above any positive cutoff, the root multisets
of two nonzero polynomials related by `p * X^b = X^a * q` coincide (after
taking real parts). -/
theorem filter_map_re_eq_of_charpoly_assoc {a b : ℕ} {p q : Polynomial ℂ}
    (hp : p ≠ 0) (hq : q ≠ 0)
    (h : p * Polynomial.X ^ b = Polynomial.X ^ a * q) (c : ℝ) (hc : 0 < c) :
    ((p.roots.map Complex.re).filter (fun x => c < x))
      = ((q.roots.map Complex.re).filter (fun x => c < x)) := by
  have hX : (Polynomial.X : Polynomial ℂ) ≠ 0 := Polynomial.X_ne_zero
  have hroots : p.roots + b • ({0} : Multiset ℂ) = a • ({0} : Multiset ℂ) + q.roots := by
    have h1 := congrArg Polynomial.roots h
    rw [Polynomial.roots_mul (mul_ne_zero hp (pow_ne_zero _ hX)),
      Polynomial.roots_mul (mul_ne_zero (pow_ne_zero _ hX) hq)] at h1
    simp only [Polynomial.roots_pow, Polynomial.roots_X] at h1
    exact h1
  have hz : ∀ m : ℕ, (((m • ({0} : Multiset ℂ)).map Complex.re).filter (fun x => c < x)) = 0 := by
    intro m
    apply Multiset.filter_eq_nil.mpr
    intro x hx
    obtain ⟨z, hz, rfl⟩ := Multiset.mem_map.mp hx
    rw [Multiset.nsmul_singleton] at hz
    rw [Multiset.eq_of_mem_replicate hz]
    simpa using not_lt.mpr hc.le
  have happ := congrArg
    (fun s : Multiset ℂ => ((s.map Complex.re).filter (fun x => c < x))) hroots
  simp only [Multiset.map_add, Multiset.filter_add] at happ
  rw [hz b, hz a, add_zero, zero_add] at happ
  exact happ

theorem reducedDensity_eq_mul_conjTranspose {n : ℕ} (ψ : QState n) (T : Finset (Fin n)) :
    reducedDensity ψ T = stateMatrix ψ T * (stateMatrix ψ T)ᴴ := by
  ext a b
  show (∑ t : {i // i ∈ T} → Bool,
      ψ (combine T t a) * (starRingEnd ℂ) (ψ (combine T t b)))
    = ∑ t : {i // i ∈ T} → Bool, stateMatrix ψ T a t * (stateMatrix ψ T)ᴴ t b
  apply Finset.sum_congr rfl
  intro t _
  rw [Matrix.conjTranspose_apply]
  rfl

/-- `Tᶜᶜ = T` at the level of subtypes. -/
def complSubtypeEquiv {n : ℕ} (T : Finset (Fin n)) :
    {i // i ∈ T} ≃ {i : Fin n // i ∈ Tᶜᶜ} :=
  Equiv.subtypeEquivRight (fun i => by simp)

/-- `Tᶜᶜ = T` at the level of qubit assignments. -/
def complAssignEquiv {n : ℕ} (T : Finset (Fin n)) :
    ({i // i ∈ T} → Bool) ≃ ({i : Fin n // i ∈ Tᶜᶜ} → Bool) :=
  Equiv.arrowCongr (complSubtypeEquiv T) (Equiv.refl Bool)

theorem combine_compl {n : ℕ} (T : Finset (Fin n)) (t' : {i // i ∈ Tᶜ} → Bool)
    (a : {i : Fin n // i ∈ Tᶜᶜ} → Bool) :
    combine Tᶜ t' a = combine T ((complAssignEquiv T).symm a) t' := by
  funext i
  by_cases h : i ∈ T
  · have h1 : i ∉ Tᶜ := by simp [h]
    simp only [combine, dif_neg h1, dif_pos h]
    rfl
  · have h1 : i ∈ Tᶜ := Finset.mem_compl.mpr h
    simp only [combine, dif_pos h1, dif_neg h]

theorem reducedDensity_compl_apply {n : ℕ} (ψ : QState n) (T : Finset (Fin n))
    (a b : {i : Fin n // i ∈ Tᶜᶜ} → Bool) :
    reducedDensity ψ Tᶜ a b
      = ((stateMatrix ψ T)ᴴ * stateMatrix ψ T)
          ((complAssignEquiv T).symm b) ((complAssignEquiv T).symm a) := by
  show (∑ t' : {i // i ∈ Tᶜ} → Bool,
      ψ (combine Tᶜ t' a) * (starRingEnd ℂ) (ψ (combine Tᶜ t' b))) = _
  rw [Matrix.mul_apply]
  apply Finset.sum_congr rfl
  intro t' _
  rw [Matrix.conjTranspose_apply, combine_compl T t' a, combine_compl T t' b]
  exact mul_comm _ _

theorem reducedDensity_compl_eq {n : ℕ} (ψ : QState n) (T : Finset (Fin n)) :
    reducedDensity ψ Tᶜ
      = (((stateMatrix ψ T)ᴴ * stateMatrix ψ T).submatrix
          ⇑(complAssignEquiv T).symm ⇑(complAssignEquiv T).symm)ᵀ := by
  ext a b
  rw [Matrix.transpose_apply, Matrix.submatrix_apply]
  exact reducedDensity_compl_apply ψ T a b

theorem charpoly_reducedDensity_compl {n : ℕ} (ψ : QState n) (T : Finset (Fin n)) :
    Matrix.charpoly (reducedDensity ψ Tᶜ)
      = Matrix.charpoly ((stateMatrix ψ T)ᴴ * stateMatrix ψ T) := by
  rw [reducedDensity_compl_eq, charpoly_transpose']
  rw [← Matrix.reindex_apply]
  exact Matrix.charpoly_reindex (complAssignEquiv T) _

theorem entropyOfRho_congr_roots {d₁ d₂ : Type} [Fintype d₁] [DecidableEq d₁]
    [Fintype d₂] [DecidableEq d₂] (ρ₁ : Matrix d₁ d₁ ℂ) (ρ₂ : Matrix d₂ d₂ ℂ)
    (h : (((Matrix.charpoly ρ₁).roots.map Complex.re).filter (fun x => EIGVAL_CUTOFF < x))
      = (((Matrix.charpoly ρ₂).roots.map Complex.re).filter (fun x => EIGVAL_CUTOFF < x))) :
    entropyOfRho ρ₁ = entropyOfRho ρ₂ := by
  rw [entropyOfRho, entropyOfRho, entropyOfEigvals, entropyOfEigvals, eigvalshRe, eigvalshRe, h]

/-- Normalization of a computational-basis state. -/
theorem sum_basis_state_norm (n : ℕ) (g₀ : Fin n → Bool) :
    (∑ g : Fin n → Bool, (if g = g₀ then (1 : ℂ) else 0)
      * (starRingEnd ℂ) (if g = g₀ then (1 : ℂ) else 0)) = 1 := by
  rw [Finset.sum_eq_single g₀]
  · simp
  · intro b _ hb
    simp [hb]
  · intro hmem
    exact absurd (Finset.mem_univ _) hmem

/-- **C1.** Partition-switch transparency: for every normalized pure state
and every bipartition, the entropy computed by `EntanglementEntropy` for
the subsystem `S` equals the one computed for the complement of `S`
(exactly, in the real-number model, hence within any floating-point
tolerance). -/
theorem entropy_partition_switch_transparent {n : ℕ} (ψ : QState n) (S : Finset (Fin n))
    (hnorm : (∑ g : Fin n → Bool, ψ g * (starRingEnd ℂ) (ψ g)) = 1) :
    entanglementEntropy ψ S = entanglementEntropy ψ Sᶜ := by
  have key : ∀ T₁ T₂ : Finset (Fin n), T₁ = T₂ →
      entropyOfRho (reducedDensity ψ T₁) = entropyOfRho (reducedDensity ψ T₂) := by
    intro T₁ T₂ hT
    subst hT
    rfl
  have hcard : S.card ≤ n := by
    have := Finset.card_le_univ S
    simpa using this
  rw [entanglementEntropy, entanglementEntropy, normalizePartition, normalizePartition]
  by_cases h1 : S.card < n / 2
  · have h2 : ¬ (Sᶜ.card < n / 2) := by
      rw [Finset.card_compl, Fintype.card_fin]
      omega
    rw [if_pos h1, if_neg h2]
  · by_cases h2 : Sᶜ.card < n / 2
    · rw [if_neg h1, if_pos h2]
      exact key S Sᶜᶜ (compl_compl S).symm
    · rw [if_neg h1, if_neg h2]
      apply entropyOfRho_congr_roots
      rw [reducedDensity_eq_mul_conjTranspose ψ S, charpoly_reducedDensity_compl ψ S]
      exact filter_map_re_eq_of_charpoly_assoc
        (Matrix.charpoly_monic _).ne_zero (Matrix.charpoly_monic _).ne_zero
        (charpoly_mul_X_pow (stateMatrix ψ S) (stateMatrix ψ S)ᴴ)
        EIGVAL_CUTOFF (by norm_num [EIGVAL_CUTOFF])

/-- Witness for C1: the 1-qubit basis state `|0⟩` with the empty
partition versus its complement. -/
theorem entropy_partition_switch_transparent_witness :
    (∑ g : Fin 1 → Bool, (fun g : Fin 1 → Bool => if g = fun _ => false then (1 : ℂ) else 0) g
        * (starRingEnd ℂ)
          ((fun g : Fin 1 → Bool => if g = fun _ => false then (1 : ℂ) else 0) g)) = 1 ∧
      entanglementEntropy (fun g : Fin 1 → Bool => if g = fun _ => false then (1 : ℂ) else 0)
          (∅ : Finset (Fin 1))
        = entanglementEntropy (fun g : Fin 1 → Bool => if g = fun _ => false then (1 : ℂ) else 0)
          (∅ : Finset (Fin 1))ᶜ :=
  ⟨sum_basis_state_norm 1 (fun _ => false),
    entropy_partition_switch_transparent _ _ (sum_basis_state_norm 1 (fun _ => false))⟩

end Qibo
